import Mathlib

/-!
Verification of the HTML reduction pipeline of `par_scrape`.

The program under study is `extract_urls_and_text` in
`src/par_scrape/utils.py` (and its earlier variant in
`src/par_scrape/api.py`).  Given an HTML document and a base URL it
returns the pair `(links, text)`:

* `links`: hrefs of anchor elements, filtered by literal prefix
  (`""`, `#`, `javascript:`, `mailto:`, `tel:`), resolved against the
  base with `urllib.parse.urljoin`, kept only when the resolved URL's
  scheme is `http` or `https`, deduplicated preserving first occurrence;
* `text`: BeautifulSoup `get_text(separator="\n", strip=True)` of the
  tree with every `script`/`style` subtree removed, re-split on newlines,
  stripped, with blank lines dropped, re-joined with single newlines.

Embedding conventions:

* A Python `str` is modelled as `List Char` (wrapped into `String` at the
  public boundary).  ASCII-range behaviour of `str.strip`/`str.lower` is
  modelled exactly; the inputs appearing in the claims are ASCII.
* The parsed BeautifulSoup tree is modelled by the mutual inductive
  `Node`/`NodeList` (element tag, attribute list, children / text node).
  `html.parser` produces some such tree for every input string, so
  universally quantified claims about "every html" are proved for every
  tree.
* CPython's `urllib.parse.urlsplit` has two uncaught `ValueError` paths
  reachable from the code under study, both modelled here in
  `Except String`: the unbalanced-square-bracket check (`Invalid IPv6
  URL`) and `_checknetloc`, which rejects a non-ASCII authority whose
  NFKC normalization introduces one of the URL delimiters `/?#@:`.  The
  latter is modelled exactly: an empty or all-ASCII netloc always
  passes (CPython's `isascii()` fast path), and otherwise CPython
  raises precisely when the netloc contains one of the finitely many
  characters whose NFKC normalization contains a delimiter
  (`nfkcDelimExpand` below), because delimiter-free NFKC instability
  falls through the final loop of `_checknetloc` without raising.
  (The bracketed-host validation of very recent CPython releases is
  not modelled; it requires both `[` and `]` in the authority, and no
  theorem below proves a normal return for such an input.)
* `urljoin`, `urlparse`, `urlsplit`, `urlunparse`, `urlunsplit`,
  `_splitnetloc`, `_splitparams` and the scheme tables `uses_relative`,
  `uses_netloc`, `uses_params` are transcribed from CPython
  `urllib/parse.py`.
-/

namespace ParScrape

/-! ## Python string primitives over `List Char` -/

/-- Whitespace for Python `str.strip()` (ASCII fragment: space, tab,
newline, carriage return, vertical tab, form feed). -/
def isPySpace (c : Char) : Bool :=
  c == ' ' || c == '\t' || c == '\n' || c == '\r' || c == '\x0b' || c == '\x0c'

/-- Characters of `urllib.parse._WHATWG_C0_CONTROL_OR_SPACE`: code points
`0x00`–`0x20`. -/
def isC0Space (c : Char) : Bool :=
  c.toNat ≤ 0x20

/-- Characters of `urllib.parse._UNSAFE_URL_BYTES_TO_REMOVE`:
tab, carriage return, newline. -/
def isRmByte (c : Char) : Bool :=
  c == '\t' || c == '\r' || c == '\n'

/-- `str.strip(chars)`: drop characters satisfying `p` from both ends. -/
def stripEnds (p : Char → Bool) (l : List Char) : List Char :=
  ((l.dropWhile p).reverse.dropWhile p).reverse

/-- Python `str.strip()` in the ASCII range. -/
def pyStrip (l : List Char) : List Char :=
  stripEnds isPySpace l

/-- ASCII lowercasing, as applied by `urlsplit` to a detected scheme
(each character has already been checked against `scheme_chars`, so this
agrees exactly with Python `str.lower()` there). -/
def lowerAscii (c : Char) : Char :=
  match c with
  | 'A' => 'a' | 'B' => 'b' | 'C' => 'c' | 'D' => 'd' | 'E' => 'e'
  | 'F' => 'f' | 'G' => 'g' | 'H' => 'h' | 'I' => 'i' | 'J' => 'j'
  | 'K' => 'k' | 'L' => 'l' | 'M' => 'm' | 'N' => 'n' | 'O' => 'o'
  | 'P' => 'p' | 'Q' => 'q' | 'R' => 'r' | 'S' => 's' | 'T' => 't'
  | 'U' => 'u' | 'V' => 'v' | 'W' => 'w' | 'X' => 'x' | 'Y' => 'y'
  | 'Z' => 'z'
  | c => c

/-- `urllib.parse.scheme_chars`: ASCII letters, digits, `+`, `-`, `.`. -/
def isSchemeChar (c : Char) : Bool :=
  c.isAlpha || c.isDigit || c == '+' || c == '-' || c == '.'

/-- Literal starts-with test on character lists (Python `str.startswith`). -/
def startsL : List Char → List Char → Bool
  | [], _ => true
  | _ :: _, [] => false
  | a :: p, b :: l => a == b && startsL p l

/-- Python `str.split(sep)` for a one-character separator: the empty
string splits to `[""]`, like in Python. -/
def splitOnChar (c : Char) : List Char → List (List Char)
  | [] => [[]]
  | a :: l =>
    if a == c then [] :: splitOnChar c l
    else
      match splitOnChar c l with
      | [] => [[a]]
      | p :: ps => (a :: p) :: ps

/-- Python `sep.join(parts)` for a one-character separator. -/
def joinChar (c : Char) : List (List Char) → List Char
  | [] => []
  | [p] => p
  | p :: ps => p ++ c :: joinChar c ps

/-- Split at the first occurrence of `c` (Python `str.split(c, 1)`);
when `c` is absent the whole input is the first component and the second
is empty, matching how `urlsplit` leaves query/fragment empty. -/
def splitFirstAt (c : Char) (l : List Char) : List Char × List Char :=
  let p := l.takeWhile (fun a => a != c)
  if p.length = l.length then (l, []) else (p, l.drop (p.length + 1))

/-! ## CPython `urllib.parse` model -/

/-- Result of `urlsplit`: `(scheme, netloc, path, query, fragment)`. -/
structure SplitRes where
  scheme : List Char
  netloc : List Char
  path : List Char
  query : List Char
  fragment : List Char
deriving DecidableEq, Repr

/-- Result of `urlparse`: `urlsplit` plus the `params` component. -/
structure ParseRes where
  scheme : List Char
  netloc : List Char
  path : List Char
  params : List Char
  query : List Char
  fragment : List Char
deriving DecidableEq, Repr

/-- `urllib.parse.uses_relative`. -/
def usesRelative : List (List Char) :=
  ["", "ftp", "http", "gopher", "nntp", "imap", "wais", "file", "https",
   "shttp", "mms", "prospero", "rtsp", "rtspu", "sftp", "svn", "svn+ssh",
   "ws", "wss"].map String.toList

/-- `urllib.parse.uses_netloc`. -/
def usesNetloc : List (List Char) :=
  ["", "ftp", "http", "gopher", "nntp", "telnet", "imap", "wais", "file",
   "mms", "https", "shttp", "snews", "prospero", "rtsp", "rtspu", "rsync",
   "svn", "svn+ssh", "sftp", "nfs", "git", "git+ssh", "ws", "wss"].map
    String.toList

/-- `urllib.parse.uses_params`. -/
def usesParams : List (List Char) :=
  ["", "ftp", "hdl", "prospero", "http", "imap", "https", "shttp", "rtsp",
   "rtspu", "sip", "sips", "mms", "sftp", "tel"].map String.toList

/-- The sanitisation `urlsplit` applies to its `url` argument: left-strip
C0 controls and space, then remove every tab, carriage return and
newline. -/
def cleanUrl (l : List Char) : List Char :=
  (l.dropWhile isC0Space).filter (fun c => !isRmByte c)

/-- The sanitisation `urlsplit` applies to its default `scheme` argument:
strip C0 controls and space from both ends, then remove unsafe bytes. -/
def cleanScheme (l : List Char) : List Char :=
  (stripEnds isC0Space l).filter (fun c => !isRmByte c)

/-- Scheme detection of `urlsplit`: a leading run of `scheme_chars`
beginning with an ASCII letter, terminated by `:`.  Returns the
lowercased scheme and the remainder, or `none`. -/
def schemeSplit (l : List Char) : Option (List Char × List Char) :=
  let pre := l.takeWhile (fun a => a != ':')
  if pre.length < l.length ∧ pre ≠ [] ∧
      (pre.headD ' ').isAlpha ∧ pre.all isSchemeChar then
    some (pre.map lowerAscii, l.drop (pre.length + 1))
  else
    none

/-- `urllib.parse._splitnetloc` (with `start = 2` already applied by the
caller): the netloc runs until the first `/`, `?` or `#`. -/
def splitNetloc (l : List Char) : List Char × List Char :=
  let n := l.takeWhile (fun c => !(c == '/' || c == '?' || c == '#'))
  (n, l.drop n.length)

/-- Python `str.isascii` on a character: code point below `0x80`. -/
def isAsciiCh (c : Char) : Bool :=
  decide (c.toNat ≤ 0x7F)

/-- The characters whose NFKC normalization contains one of the URL
delimiters `/`, `?`, `#`, `@`, `:` — exactly these nineteen, by
exhaustive scan of the Unicode character database: the fullwidth, small
and vertical compatibility forms of the delimiters (U+FF03, U+FF0F,
U+FF1A, U+FF1F, U+FF20, U+FE5F, U+FE6B, U+FE55, U+FE56, U+FE13,
U+FE16), the letterlike signs expanding to `a/c`, `a/s`, `c/o`, `c/u`
(U+2100, U+2101, U+2105, U+2106), the double punctuation expanding to
`??`, `?!`, `!?` (U+2047, U+2048, U+2049), and the double-colon-equal
sign expanding to `::=` (U+2A74). -/
def nfkcDelimExpand (c : Char) : Bool :=
  c == '℀' || c == '℁' || c == '℅' || c == '℆' ||
  c == '⁇' || c == '⁈' || c == '⁉' ||
  c == '⩴' || c == '︓' || c == '︖' || c == '﹕' ||
  c == '﹖' || c == '﹟' || c == '﹫' || c == '＃' ||
  c == '／' || c == '：' || c == '？' || c == '＠'

/-- CPython `urllib.parse._checknetloc` (the CVE-2019-9636 validation):
an empty or all-ASCII netloc always passes; otherwise the netloc minus
any literal `@`, `:`, `#`, `?` must not NFKC-normalize to a string
containing a URL delimiter — which happens exactly when it contains a
character of `nfkcDelimExpand`: the input to the check contains no
literal delimiter (`_splitnetloc` stops at `/`, `?`, `#`, and `@`, `:`
are removed first), delimiters arise under NFKC only from the
decompositions enumerated in `nfkcDelimExpand` (canonical composition
and reordering never create or consume ASCII punctuation), and NFKC
changes that introduce no delimiter fall through the final loop of
`_checknetloc` without raising. -/
def netlocNFKCUnsafe (netloc : List Char) : Bool :=
  if netloc = [] ∨ netloc.all isAsciiCh then false
  else
    (netloc.filter (fun c =>
      !(c == '@' || c == ':' || c == '#' || c == '?'))).any nfkcDelimExpand

/-- The part of `urlsplit` after scheme detection: netloc splitting with
the bracket validation, fragment and query splitting, and the
`_checknetloc` NFKC validation before the result is assembled. -/
def urlsplitTail (scheme u1 : List Char) : Except String SplitRes :=
  let nsp :=
    if u1.take 2 = ['/', '/'] then splitNetloc (u1.drop 2) else ([], u1)
  let netloc := nsp.1
  let u2 := nsp.2
  if ('[' ∈ netloc ∧ ']' ∉ netloc) ∨ (']' ∈ netloc ∧ '[' ∉ netloc) then
    .error "Invalid IPv6 URL"
  else
    let fsp := splitFirstAt '#' u2
    let qsp := splitFirstAt '?' fsp.1
    if netlocNFKCUnsafe netloc then
      -- CPython's message also embeds the offending netloc, quoted.
      .error "netloc contains invalid characters under NFKC normalization"
    else
      .ok ⟨scheme, netloc, qsp.1, qsp.2, fsp.2⟩

/-- `urllib.parse.urlsplit url scheme` with `allow_fragments=True`.
The only error is CPython's `ValueError("Invalid IPv6 URL")`, raised when
the netloc contains one bracket kind without the other. -/
def urlsplitE (url0 sdef : List Char) : Except String SplitRes :=
  let url := cleanUrl url0
  match schemeSplit url with
  | some p => urlsplitTail p.1 p.2
  | none => urlsplitTail (cleanScheme sdef) url

/-- `urllib.parse._splitparams`: split `params` off the last path
segment (after the last `/`; the whole string when there is no `/`). -/
def splitParams (url : List Char) : List Char × List Char :=
  if '/' ∈ url then
    let segR := url.reverse.takeWhile (fun c => c != '/')
    let seg := segR.reverse
    if ';' ∈ seg then
      let pre := seg.takeWhile (fun c => c != ';')
      ((url.reverse.drop segR.length).reverse ++ pre,
       seg.drop (pre.length + 1))
    else (url, [])
  else
    let pre := url.takeWhile (fun c => c != ';')
    if pre.length = url.length then (url, [])
    else (pre, url.drop (pre.length + 1))

/-- `urllib.parse.urlparse url scheme` with `allow_fragments=True`. -/
def urlparseE (url sdef : List Char) : Except String ParseRes :=
  match urlsplitE url sdef with
  | .error e => .error e
  | .ok s =>
    let pp :=
      if s.scheme ∈ usesParams ∧ ';' ∈ s.path then splitParams s.path
      else (s.path, [])
    .ok ⟨s.scheme, s.netloc, pp.1, pp.2, s.query, s.fragment⟩

/-- `urllib.parse.urlunsplit`. -/
def urlunsplitC (scheme netloc path query fragment : List Char) :
    List Char :=
  let u1 :=
    if netloc ≠ [] ∨ path.take 2 = ['/', '/'] then
      '/' :: '/' ::
        (netloc ++ (if path ≠ [] ∧ path.take 1 ≠ ['/'] then '/' :: path
                    else path))
    else path
  let u2 := if scheme ≠ [] then scheme ++ ':' :: u1 else u1
  let u3 := if query ≠ [] then u2 ++ '?' :: query else u2
  if fragment ≠ [] then u3 ++ '#' :: fragment else u3

/-- `urllib.parse.urlunparse`. -/
def urlunparseC (scheme netloc path params query fragment : List Char) :
    List Char :=
  urlunsplitC scheme netloc
    (if params ≠ [] then path ++ ';' :: params else path) query fragment

/-- Helper of `midFilter`: drop empty entries except in last position. -/
def midKeep : List (List Char) → List (List Char)
  | [] => []
  | [x] => [x]
  | x :: xs => if x = [] then midKeep xs else x :: midKeep xs

/-- Middle filtering `segments[1:-1] = filter(None, segments[1:-1])` of
`urljoin`: empty segments strictly between the first and last are
dropped. -/
def midFilter : List (List Char) → List (List Char)
  | [] => []
  | x :: xs => x :: midKeep xs

/-- The `..`/`.` resolution loop of `urljoin` (`resolved_path`). -/
def resolveSegs (acc : List (List Char)) : List (List Char) →
    List (List Char)
  | [] => acc
  | seg :: rest =>
    if seg = ['.', '.'] then resolveSegs acc.dropLast rest
    else if seg = ['.'] then resolveSegs acc rest
    else resolveSegs (acc ++ [seg]) rest

/-- The relative-path merge of `urljoin` (`base_parts`/`segments`/
`resolved_path`): produces the merged path component. -/
def mergePath (bpath upath : List Char) : List Char :=
  let baseParts0 := splitOnChar '/' bpath
  let baseParts :=
    if baseParts0.getLastD [] = [] then baseParts0
    else baseParts0.dropLast
  let segments :=
    if upath.take 1 = ['/'] then splitOnChar '/' upath
    else midFilter (baseParts ++ splitOnChar '/' upath)
  let resolved0 := resolveSegs [] segments
  let resolved :=
    if segments.getLastD [] = ['.'] ∨ segments.getLastD [] = ['.', '.']
    then resolved0 ++ [[]]
    else resolved0
  let joined := joinChar '/' resolved
  if joined = [] then ['/'] else joined

/-- The pure merging logic of `urljoin` once both parses succeeded
(`url` is the original second argument, returned verbatim for foreign
schemes). -/
def urljoinMerge (url : List Char) (b u : ParseRes) : List Char :=
  if u.scheme ≠ b.scheme ∨ u.scheme ∉ usesRelative then url
  else if u.scheme ∈ usesNetloc ∧ u.netloc ≠ [] then
    urlunparseC u.scheme u.netloc u.path u.params u.query u.fragment
  else
    let netloc := if u.scheme ∈ usesNetloc then b.netloc else u.netloc
    if u.path = [] ∧ u.params = [] then
      urlunparseC u.scheme netloc b.path b.params
        (if u.query = [] then b.query else u.query) u.fragment
    else
      urlunparseC u.scheme netloc (mergePath b.path u.path) u.params
        u.query u.fragment

/-- `urllib.parse.urljoin base url` with `allow_fragments=True`,
transcribed from CPython. -/
def urljoinE (base url : List Char) : Except String (List Char) :=
  if base = [] then .ok url
  else if url = [] then .ok base
  else
    match urlparseE base [] with
    | .error e => .error e
    | .ok b =>
      match urlparseE url b.scheme with
      | .error e => .error e
      | .ok u => .ok (urljoinMerge url b u)

/-! ## BeautifulSoup tree model -/

mutual
/-- A node of the parsed tree: a text node, or an element with tag name,
attribute list (first occurrence wins, as in `html.parser`) and
children. -/
inductive Node where
  | text : String → Node
  | elem : String → List (String × String) → NodeList → Node
/-- Children of an element / top level nodes of the soup, in document
order. -/
inductive NodeList where
  | nil : NodeList
  | cons : Node → NodeList → NodeList
end

/-- Attribute lookup (`tag["href"]`): first binding of the key. -/
def lookupAttr (attrs : List (String × String)) (k : String) :
    Option String :=
  (attrs.find? (fun p => p.1 == k)).map (fun p => p.2)

mutual
/-- `script.decompose()` applied to every `script`/`style` element found
by `soup(["script", "style"])`: the whole subtree disappears. -/
def pruneNode : Node → Option Node
  | .text s => some (.text s)
  | .elem tag attrs children =>
    if tag = "script" ∨ tag = "style" then none
    else some (.elem tag attrs (pruneList children))
/-- `pruneNode` over a node list. -/
def pruneList : NodeList → NodeList
  | .nil => .nil
  | .cons n ns =>
    match pruneNode n with
    | some m => .cons m (pruneList ns)
    | none => pruneList ns
end

mutual
/-- `soup.find_all("a", href=True)`, reduced to the href attribute values
in document (pre-)order. -/
def anchorHrefsN : Node → List String
  | .text _ => []
  | .elem tag attrs children =>
    match (if tag = "a" then lookupAttr attrs "href" else none) with
    | some h => h :: anchorHrefsL children
    | none => anchorHrefsL children
/-- `anchorHrefsN` over a node list. -/
def anchorHrefsL : NodeList → List String
  | .nil => []
  | .cons n ns => anchorHrefsN n ++ anchorHrefsL ns
end

mutual
/-- The strings yielded by BeautifulSoup `_all_strings(strip=True)`:
every text node, stripped, empty results skipped, in document order. -/
def textPiecesN : Node → List (List Char)
  | .text s =>
    let t := pyStrip s.toList
    if t = [] then [] else [t]
  | .elem _ _ children => textPiecesL children
/-- `textPiecesN` over a node list. -/
def textPiecesL : NodeList → List (List Char)
  | .nil => []
  | .cons n ns => textPiecesN n ++ textPiecesL ns
end

/-- `soup.get_text(separator="\n", strip=True)`. -/
def getTextL (doc : NodeList) : List Char :=
  joinChar '\n' (textPiecesL doc)

/-! ## The two extraction implementations -/

/-- The href filter of `utils.extract_urls_and_text`: skip empty hrefs
and those starting with `#`, `javascript:`, `mailto:` or `tel:`. -/
def skipHrefUtils (h : List Char) : Bool :=
  h.isEmpty || startsL "#".toList h || startsL "javascript:".toList h ||
    startsL "mailto:".toList h || startsL "tel:".toList h

/-- The href filter of the earlier `api.extract_urls_and_text` variant:
same, but without the `tel:` case. -/
def skipHrefApi (h : List Char) : Bool :=
  h.isEmpty || startsL "#".toList h || startsL "javascript:".toList h ||
    startsL "mailto:".toList h

/-- The link-collection loop of `utils.extract_urls_and_text`: filter by
literal prefix, resolve with `urljoin`, keep `http`/`https` resolved
URLs, in document order.  A `ValueError` from `urljoin`/`urlparse`
propagates. -/
def collectUtils (base : List Char) : List (List Char) →
    Except String (List (List Char))
  | [] => .ok []
  | h :: hs =>
    if skipHrefUtils h then collectUtils base hs
    else
      match urljoinE base h with
      | .error e => .error e
      | .ok abs =>
        match urlparseE abs [] with
        | .error e => .error e
        | .ok p =>
          match collectUtils base hs with
          | .error e => .error e
          | .ok tail =>
            .ok (if p.scheme = "http".toList ∨ p.scheme = "https".toList
                 then abs :: tail else tail)

/-- The link-collection loop of `api.extract_urls_and_text` (no `tel:`
pre-filter). -/
def collectApi (base : List Char) : List (List Char) →
    Except String (List (List Char))
  | [] => .ok []
  | h :: hs =>
    if skipHrefApi h then collectApi base hs
    else
      match urljoinE base h with
      | .error e => .error e
      | .ok abs =>
        match urlparseE abs [] with
        | .error e => .error e
        | .ok p =>
          match collectApi base hs with
          | .error e => .error e
          | .ok tail =>
            .ok (if p.scheme = "http".toList ∨ p.scheme = "https".toList
                 then abs :: tail else tail)

/-- The duplicate-removal loop (`seen = set(); ...`): keep the first
occurrence of each URL. -/
def dedupAcc (seen : List (List Char)) : List (List Char) →
    List (List Char)
  | [] => []
  | x :: xs =>
    if x ∈ seen then dedupAcc seen xs
    else x :: dedupAcc (x :: seen) xs

/-- The newline cleanup `[line.strip() for line in text.split("\n") if
line.strip()]`. -/
def cleanLines (t : List Char) : List (List Char) :=
  ((splitOnChar '\n' t).map pyStrip).filter (fun l => !l.isEmpty)

/-- The cleaned visible text: surviving lines joined with `"\n"`. -/
def cleanText (t : List Char) : List Char :=
  joinChar '\n' (cleanLines t)

/-- `utils.extract_urls_and_text(html, base_url)`, acting on the parsed
tree of `html`.  Returns `(unique_urls, clean_text)`, or the pending
`ValueError` of `urljoin`/`urlparse`. -/
def extract_urls_and_text (doc : NodeList) (base_url : String) :
    Except String (List String × String) :=
  match collectUtils base_url.toList
      ((anchorHrefsL (pruneList doc)).map String.toList) with
  | .error e => .error e
  | .ok urls =>
    .ok ((dedupAcc [] urls).map String.mk,
      String.mk (cleanText (getTextL (pruneList doc))))

/-- `api.extract_urls_and_text(html, base_url)` (the earlier variant). -/
def api_extract_urls_and_text (doc : NodeList) (base_url : String) :
    Except String (List String × String) :=
  match collectApi base_url.toList
      ((anchorHrefsL (pruneList doc)).map String.toList) with
  | .error e => .error e
  | .ok urls =>
    .ok ((dedupAcc [] urls).map String.mk,
      String.mk (cleanText (getTextL (pruneList doc))))

/-! ## Specification-side definitions -/

/-- Specification rendering of "first occurrence wins": keep each
element's first occurrence, delete its later duplicates. -/
def firstOcc : List (List Char) → List (List Char)
  | [] => []
  | x :: xs => x :: firstOcc (xs.filter (fun y => y != x))
termination_by l => l.length
decreasing_by
  simpa using Nat.lt_succ_of_le (List.length_filter_le _ _)

mutual
/-- Replace the contents of every `script`/`style` element by nothing,
leaving the rest of the tree untouched (used to state that the extraction
output does not depend on script/style content). -/
def scrubNode : Node → Node
  | .text s => .text s
  | .elem tag attrs children =>
    if tag = "script" ∨ tag = "style" then .elem tag attrs .nil
    else .elem tag attrs (scrubList children)
/-- `scrubNode` over a node list. -/
def scrubList : NodeList → NodeList
  | .nil => .nil
  | .cons n ns => .cons (scrubNode n) (scrubList ns)
end

/-- Substring test on character lists (Python `in` on `str`). -/
def isSubstr (p l : List Char) : Bool :=
  l.tails.any (fun t => startsL p t)

/-- List-literal notation helper for building documents. -/
def nlist : List Node → NodeList
  | [] => .nil
  | n :: ns => .cons n (nlist ns)

/-! ## Concrete documents used by scenarios, witnesses, counterexamples -/

/-- Parse tree of `<a href="/path">Link</a><p>Text</p>` under
`html.parser`. -/
def docScenario1 : NodeList :=
  nlist [.elem "a" [("href", "/path")] (nlist [.text "Link"]),
         .elem "p" [] (nlist [.text "Text"])]

/-- Parse tree of `<html><body></body></html>`. -/
def docEmptyBody : NodeList :=
  nlist [.elem "html" [] (nlist [.elem "body" [] (nlist [])])]

/-- Parse tree of `<a href="tel:+123">call</a>`. -/
def docTel : NodeList :=
  nlist [.elem "a" [("href", "tel:+123")] (nlist [.text "call"])]

/-- Parse tree of `<a href="x">t</a>`. -/
def docPlain : NodeList :=
  nlist [.elem "a" [("href", "x")] (nlist [.text "t"])]

/-- Parse tree of `<p>x</p><script>x</script>`: the script body is the
same string as the visible text. -/
def docCoincide : NodeList :=
  nlist [.elem "p" [] (nlist [.text "x"]),
         .elem "script" [] (nlist [.text "x"])]

/-! ## Helper lemmas: the collection loops -/

/-- A pre-filtered href anywhere in the iteration order is simply
skipped by the `utils` collection loop. -/
theorem collectUtils_insert (base h : List Char)
    (hsk : skipHrefUtils h = true) (l1 l2 : List (List Char)) :
    collectUtils base (l1 ++ h :: l2) = collectUtils base (l1 ++ l2) := by
  induction l1 with
  | nil => simp [collectUtils, hsk]
  | cons a l1 ih =>
    by_cases ha : skipHrefUtils a = true
    · simpa [collectUtils, ha] using ih
    · simp only [List.cons_append, collectUtils, ha, if_false,
        List.append_eq]
      rw [ih]

/-- A pre-filtered href anywhere in the iteration order is simply
skipped by the `api` collection loop. -/
theorem collectApi_insert (base h : List Char)
    (hsk : skipHrefApi h = true) (l1 l2 : List (List Char)) :
    collectApi base (l1 ++ h :: l2) = collectApi base (l1 ++ l2) := by
  induction l1 with
  | nil => simp [collectApi, hsk]
  | cons a l1 ih =>
    by_cases ha : skipHrefApi a = true
    · simpa [collectApi, ha] using ih
    · simp only [List.cons_append, collectApi, ha, if_false,
        List.append_eq]
      rw [ih]

/-! ## Claim C1 -/

/-- C1: on the parse tree of `<a href="/path">Link</a><p>Text</p>` with
base `https://example.com`, `extract_urls_and_text` returns exactly
`(["https://example.com/path"], "Link\nText")`. -/
theorem claim_C1 :
    extract_urls_and_text docScenario1 "https://example.com" =
      .ok (["https://example.com/path"], "Link\nText") := rfl

/-! ## Claim C8 -/

/-- C8: on the parse tree of `<html><body></body></html>` and any
`base_url`, `extract_urls_and_text` returns `([], "")` and signals no
error. -/
theorem claim_C8 (base : String) :
    extract_urls_and_text docEmptyBody base = .ok ([], "") := rfl

/-! ## Claim C3 -/

/-- C3: an anchor whose original (pre-resolution) href starts with `#`,
`javascript:`, `mailto:` or `tel:` contributes no entry to the collected
link list, wherever it occurs in the document-order href sequence; the
test is on the raw attribute value, before any resolution. -/
theorem claim_C3 (base h : List Char) (l1 l2 : List (List Char))
    (hbad : startsL "#".toList h = true ∨
      startsL "javascript:".toList h = true ∨
      startsL "mailto:".toList h = true ∨
      startsL "tel:".toList h = true) :
    collectUtils base (l1 ++ h :: l2) = collectUtils base (l1 ++ l2) := by
  apply collectUtils_insert
  simp only [skipHrefUtils, Bool.or_eq_true]
  rcases hbad with h1 | h1 | h1 | h1
  · exact Or.inl (Or.inl (Or.inl (Or.inr h1)))
  · exact Or.inl (Or.inl (Or.inr h1))
  · exact Or.inl (Or.inr h1)
  · exact Or.inr h1

/-- Witness for C3 at the concrete href `#frag`. -/
theorem claim_C3_witness :
    (startsL "#".toList "#frag".toList = true ∨
      startsL "javascript:".toList "#frag".toList = true ∨
      startsL "mailto:".toList "#frag".toList = true ∨
      startsL "tel:".toList "#frag".toList = true) ∧
    collectUtils "https://example.com".toList ["#frag".toList] =
      collectUtils "https://example.com".toList [] :=
  ⟨Or.inl (by decide),
   claim_C3 "https://example.com".toList "#frag".toList [] []
     (Or.inl (by decide))⟩

/-! ## Claim C10 -/

/-- C10: an anchor with an empty href contributes no entry, in both
implementations: the empty href is skipped before resolution, although
`urljoin` applied to an empty href against a nonempty base would have
returned the base URL itself. -/
theorem claim_C10 :
    (∀ (base : List Char) (l1 l2 : List (List Char)),
      collectUtils base (l1 ++ [] :: l2) = collectUtils base (l1 ++ l2)) ∧
    (∀ (base : List Char) (l1 l2 : List (List Char)),
      collectApi base (l1 ++ [] :: l2) = collectApi base (l1 ++ l2)) ∧
    (∀ base : List Char, base ≠ [] → urljoinE base [] = .ok base) := by
  refine ⟨?_, ?_, ?_⟩
  · intro base l1 l2
    exact collectUtils_insert base [] (by decide) l1 l2
  · intro base l1 l2
    exact collectApi_insert base [] (by decide) l1 l2
  · intro base hb
    simp [urljoinE, hb]

/-- Witness for C10 at the concrete base `https://example.com`. -/
theorem claim_C10_witness :
    collectUtils "https://example.com".toList [[]] =
      collectUtils "https://example.com".toList [] ∧
    urljoinE "https://example.com".toList [] =
      .ok "https://example.com".toList :=
  ⟨claim_C10.1 "https://example.com".toList [] [],
   claim_C10.2.2 "https://example.com".toList (by decide)⟩

/-! ## Helper lemmas: collected URLs and deduplication -/

/-- Every URL emitted by the `utils` collection loop parses with scheme
`http` or `https` (the post-resolution filter). -/
theorem collectUtils_mem_scheme (base : List Char) :
    ∀ (hs urls : List (List Char)), collectUtils base hs = .ok urls →
      ∀ u ∈ urls, ∃ p, urlparseE u [] = .ok p ∧
        (p.scheme = "http".toList ∨ p.scheme = "https".toList) := by
  intro hs
  induction hs with
  | nil =>
    intro urls h u hu
    rw [collectUtils, Except.ok.injEq] at h
    subst h
    cases hu
  | cons a hs ih =>
    intro urls h u hu
    rw [collectUtils] at h
    split at h
    · exact ih urls h u hu
    · split at h
      · exact Except.noConfusion h
      · rename_i abs hj
        split at h
        · exact Except.noConfusion h
        · rename_i p hp
          split at h
          · exact Except.noConfusion h
          · rename_i tail ht
            rw [Except.ok.injEq] at h
            subst h
            by_cases hc : p.scheme = "http".toList ∨
                p.scheme = "https".toList
            · rw [if_pos hc] at hu
              rcases List.mem_cons.mp hu with rfl | hu'
              · exact ⟨p, hp, hc⟩
              · exact ih tail ht u hu'
            · rw [if_neg hc] at hu
              exact ih tail ht u hu

/-- Membership through the deduplication loop: a produced URL occurs in
the input and was not previously seen. -/
theorem dedupAcc_mem : ∀ (l seen : List (List Char)) (x : List Char),
    x ∈ dedupAcc seen l → x ∈ l ∧ x ∉ seen := by
  intro l
  induction l with
  | nil => intro seen x hx; cases hx
  | cons a l ih =>
    intro seen x hx
    by_cases ha : a ∈ seen
    · rw [dedupAcc, if_pos ha] at hx
      obtain ⟨h1, h2⟩ := ih seen x hx
      exact ⟨List.mem_cons_of_mem a h1, h2⟩
    · rw [dedupAcc, if_neg ha] at hx
      rcases List.mem_cons.mp hx with rfl | hx'
      · exact ⟨List.mem_cons_self x l, ha⟩
      · obtain ⟨h1, h2⟩ := ih (a :: seen) x hx'
        refine ⟨List.mem_cons_of_mem a h1, fun hs => h2 ?_⟩
        exact List.mem_cons_of_mem a hs

/-- The deduplication loop never emits the same URL twice. -/
theorem dedupAcc_nodup : ∀ (l seen : List (List Char)),
    (dedupAcc seen l).Nodup := by
  intro l
  induction l with
  | nil => intro seen; exact List.nodup_nil
  | cons a l ih =>
    intro seen
    by_cases ha : a ∈ seen
    · rw [dedupAcc, if_pos ha]; exact ih seen
    · rw [dedupAcc, if_neg ha]
      refine List.nodup_cons.mpr ⟨fun hmem => ?_, ih (a :: seen)⟩
      exact (dedupAcc_mem l (a :: seen) a hmem).2 (List.mem_cons_self a seen)

/-- The deduplication loop computes exactly the keep-first-occurrence
sequence of its input (relative to an initial seen-set). -/
theorem dedupAcc_eq_firstOcc : ∀ (l seen : List (List Char)),
    dedupAcc seen l = firstOcc (l.filter (fun x => decide (x ∉ seen))) := by
  intro l
  induction l with
  | nil => intro seen; simp [dedupAcc, firstOcc]
  | cons a l ih =>
    intro seen
    by_cases ha : a ∈ seen
    · rw [dedupAcc, if_pos ha, ih seen]
      congr 1
      simp [List.filter_cons, ha]
    · rw [dedupAcc, if_neg ha, ih (a :: seen)]
      have hrhs : List.filter (fun x => decide (x ∉ seen)) (a :: l) =
          a :: List.filter (fun x => decide (x ∉ seen)) l := by
        simp [List.filter_cons, ha]
      rw [hrhs]
      conv_rhs => rw [firstOcc]
      rw [List.filter_filter]
      congr 1
      congr 1
      apply List.filter_congr
      intro y _
      by_cases h1 : y = a <;> by_cases h2 : y ∈ seen <;>
        simp [h1, h2, List.mem_cons]

/-! ## Claim C4 -/

/-- C4: every entry of the returned `links` parses (with
`urllib.parse.urlparse`) to scheme `http` or `https`; any resolved URL
with another scheme was discarded by the post-resolution filter. -/
theorem claim_C4 (doc : NodeList) (base : String) (ls : List String)
    (t : String)
    (hok : extract_urls_and_text doc base = .ok (ls, t)) :
    ∀ u ∈ ls, ∃ p, urlparseE u.toList [] = .ok p ∧
      (p.scheme = "http".toList ∨ p.scheme = "https".toList) := by
  unfold extract_urls_and_text at hok
  split at hok
  · exact Except.noConfusion hok
  · rename_i urls hc
    rw [Except.ok.injEq, Prod.mk.injEq] at hok
    obtain ⟨hls, -⟩ := hok
    intro u hu
    rw [← hls] at hu
    obtain ⟨a, ha, rfl⟩ := List.mem_map.mp hu
    have ha' : a ∈ urls := (dedupAcc_mem urls [] a ha).1
    simpa using collectUtils_mem_scheme base.toList _ urls hc a ha'

/-- Witness for C4: the single link of scenario 1. -/
theorem claim_C4_witness :
    ∃ p, urlparseE "https://example.com/path".toList [] = .ok p ∧
      (p.scheme = "http".toList ∨ p.scheme = "https".toList) :=
  claim_C4 docScenario1 "https://example.com" ["https://example.com/path"]
    "Link\nText" rfl "https://example.com/path" (List.mem_singleton.mpr rfl)

/-! ## Claim C5 -/

/-- C5: the returned `links` list is duplicate-free (exact string
equality on final absolute URLs) and equals the keep-first-occurrence
sequence of the document-order resolved URL sequence: first occurrence
wins and fixes the position, later duplicates are dropped. -/
theorem claim_C5 (doc : NodeList) (base : String) (ls : List String)
    (t : String)
    (hok : extract_urls_and_text doc base = .ok (ls, t)) :
    ∃ raw, collectUtils base.toList
        ((anchorHrefsL (pruneList doc)).map String.toList) = .ok raw ∧
      ls = (firstOcc raw).map String.mk ∧ ls.Nodup := by
  unfold extract_urls_and_text at hok
  split at hok
  · exact Except.noConfusion hok
  · rename_i urls hc
    rw [Except.ok.injEq, Prod.mk.injEq] at hok
    obtain ⟨hls, -⟩ := hok
    have hfo : dedupAcc [] urls = firstOcc urls := by
      simpa using dedupAcc_eq_firstOcc urls []
    have hinj : Function.Injective String.mk := by
      intro a b hab
      exact congrArg String.data hab
    refine ⟨urls, hc, ?_, ?_⟩
    · rw [← hls, hfo]
    · rw [← hls]
      exact (dedupAcc_nodup urls []).map hinj

/-- Witness for C5 at scenario 1. -/
theorem claim_C5_witness :
    ∃ raw, collectUtils "https://example.com".toList
        ((anchorHrefsL (pruneList docScenario1)).map String.toList) =
          .ok raw ∧
      ["https://example.com/path"] = (firstOcc raw).map String.mk ∧
      (["https://example.com/path"] : List String).Nodup :=
  claim_C5 docScenario1 "https://example.com" ["https://example.com/path"]
    "Link\nText" rfl

/-! ## Helper lemmas: script/style removal -/

mutual
/-- Pruning ignores the contents of `script`/`style` elements: pruning a
scrubbed node gives the same result as pruning the original node. -/
theorem pruneNode_scrub (n : Node) : pruneNode (scrubNode n) = pruneNode n := by
  cases n with
  | text s => rfl
  | elem tag attrs children =>
    by_cases h : tag = "script" ∨ tag = "style"
    · simp [scrubNode, pruneNode, h]
    · simp [scrubNode, pruneNode, h, pruneList_scrub children]
/-- The node-list form of `pruneNode_scrub`. -/
theorem pruneList_scrub (l : NodeList) : pruneList (scrubList l) = pruneList l := by
  cases l with
  | nil => rfl
  | cons n ns =>
    simp only [scrubList, pruneList, pruneNode_scrub n, pruneList_scrub ns]
end

/-! ## Claim C7 -/

/-- C7 (amended): every `script`/`style` subtree is removed in its
entirety before the visible text (and the link list) is computed, so the
result of `extract_urls_and_text` is invariant under replacing the whole
contents of every `script`/`style` element; in particular text reachable
only inside `script`/`style` elements never influences the output.  (The
claim's literal "never a substring" form fails when visible content
coincides with script content, see the counterexample.) -/
theorem claim_C7 (doc : NodeList) (base : String) :
    extract_urls_and_text (scrubList doc) base =
      extract_urls_and_text doc base := by
  unfold extract_urls_and_text
  rw [pruneList_scrub doc]

/-- Counterexample to C7 as stated: on `<p>x</p><script>x</script>` the
script element's literal text content `"x"` does appear as a substring of
the returned text (which is the visible `"x"`). -/
theorem claim_C7_counterexample :
    extract_urls_and_text docCoincide "https://example.com" =
      .ok ([], "x") ∧
    isSubstr "x".toList "x".toList = true :=
  ⟨rfl, rfl⟩

/-! ## Helper lemmas: stripping and newline splitting -/

/-- `dropWhile` is idempotent. -/
theorem dropWhile_self (p : Char → Bool) (l : List Char) :
    (l.dropWhile p).dropWhile p = l.dropWhile p := by
  induction l with
  | nil => rfl
  | cons a l ih =>
    by_cases h : p a <;> simp [List.dropWhile_cons, h, ih]

/-- The head surviving `dropWhile` does not satisfy the predicate. -/
theorem dropWhile_head_false {p : Char → Bool} {l t : List Char}
    {a : Char} (h : l.dropWhile p = a :: t) : p a = false := by
  induction l with
  | nil => exact absurd h (by simp)
  | cons b l ih =>
    rw [List.dropWhile_cons] at h
    by_cases hb : p b
    · rw [if_pos hb] at h
      exact ih h
    · rw [if_neg hb] at h
      obtain ⟨rfl, -⟩ := List.cons.inj h
      exact Bool.not_eq_true _ ▸ hb

/-- A list whose head never satisfies the predicate is `dropWhile`-fixed. -/
theorem dropWhile_eq_self_of {p : Char → Bool} {l : List Char}
    (h : ∀ a t, l = a :: t → p a = false) : l.dropWhile p = l := by
  cases l with
  | nil => rfl
  | cons a t => simp [List.dropWhile_cons, h a t rfl]

/-- Elements of `dropWhile` come from the original list. -/
theorem mem_of_dropWhile {p : Char → Bool} {x : Char} {l : List Char}
    (h : x ∈ l.dropWhile p) : x ∈ l := by
  have hs := List.takeWhile_append_dropWhile (p := p) (l := l)
  rw [← hs]
  exact List.mem_append_right _ h

/-- Elements of a both-ends strip come from the original list. -/
theorem mem_of_stripEnds {p : Char → Bool} {x : Char} {l : List Char}
    (h : x ∈ stripEnds p l) : x ∈ l := by
  unfold stripEnds at h
  rw [List.mem_reverse] at h
  have h2 := mem_of_dropWhile h
  rw [List.mem_reverse] at h2
  exact mem_of_dropWhile h2

/-- The head of a both-ends strip does not satisfy the predicate. -/
theorem stripEnds_head {p : Char → Bool} {l t : List Char} {a : Char}
    (h : stripEnds p l = a :: t) : p a = false := by
  unfold stripEnds at h
  have hsplit :=
    List.takeWhile_append_dropWhile (p := p) (l := (l.dropWhile p).reverse)
  have h2 := congrArg List.reverse hsplit
  rw [List.reverse_append, List.reverse_reverse] at h2
  rw [h] at h2
  have hm : l.dropWhile p =
      a :: (t ++ ((l.dropWhile p).reverse.takeWhile p).reverse) := by
    rw [← List.cons_append]
    exact h2.symm
  exact dropWhile_head_false hm

/-- Stripping both ends is idempotent. -/
theorem stripEnds_idem (p : Char → Bool) (l : List Char) :
    stripEnds p (stripEnds p l) = stripEnds p l := by
  have hfront : (stripEnds p l).dropWhile p = stripEnds p l :=
    dropWhile_eq_self_of (fun a t h => stripEnds_head h)
  have hrev : (stripEnds p l).reverse =
      (l.dropWhile p).reverse.dropWhile p := by
    unfold stripEnds
    rw [List.reverse_reverse]
  show (((stripEnds p l).dropWhile p).reverse.dropWhile p).reverse =
    stripEnds p l
  rw [hfront, hrev, dropWhile_self]
  rfl

/-- `splitOnChar` never returns the empty list of parts. -/
theorem splitOnChar_ne_nil (c : Char) (l : List Char) :
    splitOnChar c l ≠ [] := by
  induction l with
  | nil => simp [splitOnChar]
  | cons a l ih =>
    rw [splitOnChar]
    by_cases h : (a == c) = true
    · simp [h]
    · simp only [h, if_false]
      cases hsp : splitOnChar c l <;> simp

/-- No part produced by `splitOnChar` contains the separator. -/
theorem not_mem_splitOnChar (c : Char) : ∀ (l p : List Char),
    p ∈ splitOnChar c l → c ∉ p := by
  intro l
  induction l with
  | nil =>
    intro p hp
    rw [splitOnChar] at hp
    rcases List.mem_singleton.mp hp with rfl
    simp
  | cons a l ih =>
    intro p hp
    rw [splitOnChar] at hp
    by_cases h : (a == c) = true
    · rw [if_pos h] at hp
      rcases List.mem_cons.mp hp with rfl | hp'
      · simp
      · exact ih p hp'
    · rw [if_neg h] at hp
      cases hsp : splitOnChar c l with
      | nil => exact absurd hsp (splitOnChar_ne_nil c l)
      | cons q qs =>
        rw [hsp] at hp
        rcases List.mem_cons.mp hp with rfl | hp'
        · intro hc
          rcases List.mem_cons.mp hc with rfl | hc'
          · exact h (by simp)
          · exact ih q (hsp ▸ List.mem_cons_self q qs) hc'
        · exact ih p (hsp ▸ List.mem_cons_of_mem q hp')

/-- A separator-free list splits to itself alone. -/
theorem splitOnChar_of_not_mem (c : Char) : ∀ l : List Char, c ∉ l →
    splitOnChar c l = [l] := by
  intro l
  induction l with
  | nil => intro _; rfl
  | cons a l ih =>
    intro h
    have h2 : ¬(c = a ∨ c ∈ l) := fun hor => h (List.mem_cons.mpr hor)
    push_neg at h2
    obtain ⟨hca, hcl⟩ := h2
    have ha : (a == c) = false :=
      beq_eq_false_iff_ne.mpr (fun he => hca he.symm)
    rw [splitOnChar]
    simp only [ha, Bool.false_eq_true, if_false]
    rw [ih hcl]

/-- Splitting after appending a separator-free part, the separator, and a
rest recovers the part. -/
theorem splitOnChar_append (c : Char) (r : List Char) :
    ∀ p : List Char, c ∉ p →
    splitOnChar c (p ++ c :: r) = p :: splitOnChar c r := by
  intro p
  induction p with
  | nil =>
    intro _
    simp [splitOnChar]
  | cons a p ih =>
    intro h
    have h2 : ¬(c = a ∨ c ∈ p) := fun hor => h (List.mem_cons.mpr hor)
    push_neg at h2
    obtain ⟨hca, hcp⟩ := h2
    have ha : (a == c) = false :=
      beq_eq_false_iff_ne.mpr (fun he => hca he.symm)
    rw [List.cons_append, splitOnChar]
    simp only [ha, Bool.false_eq_true, if_false]
    rw [ih hcp]

/-- Splitting the join of nonempty, separator-free parts recovers the
parts. -/
theorem splitOnChar_joinChar (c : Char) : ∀ parts : List (List Char),
    parts ≠ [] → (∀ p ∈ parts, c ∉ p) →
    splitOnChar c (joinChar c parts) = parts := by
  intro parts
  induction parts with
  | nil => intro h _; exact absurd rfl h
  | cons p rest ih =>
    intro _ hall
    cases rest with
    | nil =>
      rw [show joinChar c [p] = p from rfl]
      rw [splitOnChar_of_not_mem c p (hall p (List.mem_singleton.mpr rfl))]
    | cons q rest2 =>
      rw [show joinChar c (p :: q :: rest2) =
        p ++ c :: joinChar c (q :: rest2) from rfl]
      rw [splitOnChar_append c (joinChar c (q :: rest2)) p
        (hall p (List.mem_cons_self p (q :: rest2)))]
      rw [ih (by simp) (fun x hx => hall x (List.mem_cons_of_mem p hx))]

/-! ## Claim C6 -/

/-- C6 (amended): unless the returned text is the empty string, splitting
it on the newline character yields only lines that are nonempty and
strip-fixed (no leading/trailing whitespace, hence no whitespace-only
line), and the text is exactly those lines joined by single newlines.
(The unconditional claim fails at empty text, whose Python-style split is
`[""]`; see the counterexample.) -/
theorem claim_C6 (doc : NodeList) (base : String) (ls : List String)
    (t : String)
    (hok : extract_urls_and_text doc base = .ok (ls, t)) :
    t = "" ∨ ∀ line ∈ splitOnChar '\n' t.toList,
      line ≠ [] ∧ pyStrip line = line := by
  unfold extract_urls_and_text at hok
  split at hok
  · exact Except.noConfusion hok
  · rw [Except.ok.injEq, Prod.mk.injEq] at hok
    obtain ⟨-, ht⟩ := hok
    cases hp : cleanLines (getTextL (pruneList doc)) with
    | nil =>
      left
      rw [← ht]
      unfold cleanText
      rw [hp]
      rfl
    | cons q qs =>
      right
      intro line hline
      have htl : t.toList =
          joinChar '\n' (cleanLines (getTextL (pruneList doc))) := by
        rw [← ht]
        rfl
      have hnomem : ∀ x ∈ cleanLines (getTextL (pruneList doc)),
          '\n' ∉ x := by
        intro x hx
        unfold cleanLines at hx
        obtain ⟨hxm, -⟩ := List.mem_filter.mp hx
        obtain ⟨q0, hq0, rfl⟩ := List.mem_map.mp hxm
        intro hn
        exact not_mem_splitOnChar '\n' (getTextL (pruneList doc)) q0 hq0
          (mem_of_stripEnds hn)
      rw [htl, splitOnChar_joinChar '\n' _ (by rw [hp]; simp) hnomem]
        at hline
      unfold cleanLines at hline
      obtain ⟨hmem, hpred⟩ := List.mem_filter.mp hline
      obtain ⟨q0, -, rfl⟩ := List.mem_map.mp hmem
      constructor
      · intro hnil
        rw [hnil] at hpred
        exact absurd hpred (by simp)
      · exact stripEnds_idem isPySpace q0

/-- Witness for C6: the two-line text of scenario 1. -/
theorem claim_C6_witness :
    ("Link\nText" : String) = "" ∨
    ∀ line ∈ splitOnChar '\n' ("Link\nText" : String).toList,
      line ≠ [] ∧ pyStrip line = line :=
  claim_C6 docScenario1 "https://example.com"
    ["https://example.com/path"] "Link\nText" rfl

/-- Counterexample to C6 as stated: for the empty-body document the
returned text is `""`, and splitting `""` on the newline character
yields `[""]`, which does contain an empty line. -/
theorem claim_C6_counterexample :
    extract_urls_and_text docEmptyBody "https://example.com" =
      .ok ([], "") ∧
    [] ∈ splitOnChar '\n' ("" : String).toList :=
  ⟨rfl, List.mem_singleton.mpr rfl⟩

/-! ## Helper lemmas: `tel:` hrefs and the two variants -/

/-- A successful `startsL` test exposes the literal decomposition. -/
theorem startsL_exists : ∀ (p l : List Char), startsL p l = true →
    ∃ r, l = p ++ r := by
  intro p
  induction p with
  | nil => intro l _; exact ⟨l, rfl⟩
  | cons a p ih =>
    intro l h
    cases l with
    | nil => exact absurd h (by simp [startsL])
    | cons b l =>
      rw [startsL, Bool.and_eq_true] at h
      obtain ⟨hab, hpl⟩ := h
      obtain ⟨r, rfl⟩ := ih l hpl
      exact ⟨r, by rw [eq_of_beq hab]; rfl⟩

/-- The `api` filter is contained in the `utils` filter. -/
theorem skipApi_imp_utils {h : List Char} (ha : skipHrefApi h = true) :
    skipHrefUtils h = true := by
  have he : skipHrefUtils h =
      (skipHrefApi h || startsL "tel:".toList h) := rfl
  rw [he, ha, Bool.true_or]

/-- An href skipped by `utils` but not by `api` starts with `tel:`. -/
theorem utils_api_tel {h : List Char} (hu : skipHrefUtils h = true)
    (ha : skipHrefApi h = false) : startsL "tel:".toList h = true := by
  have he : skipHrefUtils h =
      (skipHrefApi h || startsL "tel:".toList h) := rfl
  rw [he, ha, Bool.false_or] at hu
  exact hu

/-- Scheme detection on a `tel:`-prefixed string always finds `tel`. -/
theorem schemeSplit_tel (fr : List Char) :
    schemeSplit ("tel:".toList ++ fr) = some ("tel".toList, fr) := by
  unfold schemeSplit
  rw [show List.takeWhile (fun a => a != ':') ("tel:".toList ++ fr) =
    "tel".toList from rfl]
  have hcond : ("tel".toList).length < ("tel:".toList ++ fr).length ∧
      ("tel".toList) ≠ [] ∧ (("tel".toList).headD ' ').isAlpha ∧
      ("tel".toList).all isSchemeChar := by
    refine ⟨?_, by decide, by decide, by decide⟩
    rw [List.length_append]
    have : ("tel".toList).length = 3 := rfl
    rw [this]
    have : ("tel:".toList).length = 4 := rfl
    rw [this]
    omega
  rw [if_pos hcond]
  rfl

/-- When `urlsplitTail` succeeds, it reports exactly the scheme it was
given. -/
theorem urlsplitTail_scheme (sch u1 : List Char) (s : SplitRes)
    (h : urlsplitTail sch u1 = .ok s) : s.scheme = sch := by
  simp only [urlsplitTail] at h
  split at h <;> split at h <;>
    first
    | exact Except.noConfusion h
    | (split at h <;>
        first
        | exact Except.noConfusion h
        | (rw [Except.ok.injEq] at h
           subst h
           rfl))

/-- `urlsplit` of a `tel:`-prefixed string, under any default scheme,
reports scheme `tel` whenever it succeeds. -/
theorem urlsplitE_tel (r d : List Char) (s : SplitRes)
    (hs : urlsplitE ("tel:".toList ++ r) d = .ok s) :
    s.scheme = "tel".toList := by
  simp only [urlsplitE] at hs
  rw [show cleanUrl ("tel:".toList ++ r) =
    "tel:".toList ++ r.filter (fun c => !isRmByte c) from rfl] at hs
  rw [schemeSplit_tel] at hs
  exact urlsplitTail_scheme "tel".toList (r.filter (fun c => !isRmByte c))
    s hs

/-- `urlparse` of a `tel:`-prefixed string, under any default scheme,
reports scheme `tel` whenever it succeeds. -/
theorem urlparseE_tel (r d : List Char) (p : ParseRes)
    (hp : urlparseE ("tel:".toList ++ r) d = .ok p) :
    p.scheme = "tel".toList := by
  unfold urlparseE at hp
  split at hp
  · exact Except.noConfusion hp
  · rename_i s hs
    rw [Except.ok.injEq] at hp
    subst hp
    exact urlsplitE_tel r d s hs

/-- `urljoin` returns a `tel:`-prefixed href verbatim whenever it
succeeds (the scheme `tel` is not in `uses_relative`). -/
theorem urljoinE_tel (base r abs : List Char)
    (hj : urljoinE base ("tel:".toList ++ r) = .ok abs) :
    abs = "tel:".toList ++ r := by
  unfold urljoinE at hj
  split at hj
  · exact (Except.ok.inj hj).symm
  · split at hj
    · rename_i hne hnil
      exact absurd hnil (by simp)
    · split at hj
      · exact Except.noConfusion hj
      · rename_i b hb
        split at hj
        · exact Except.noConfusion hj
        · rename_i u hu
          have hus : u.scheme = "tel".toList := urlparseE_tel r b.scheme u hu
          have hm : urljoinMerge ("tel:".toList ++ r) b u =
              "tel:".toList ++ r := by
            unfold urljoinMerge
            rw [if_pos (Or.inr (by rw [hus]; decide))]
          rw [hm] at hj
          exact (Except.ok.inj hj).symm

/-- When both collection loops return, they return the same list: the
post-resolution scheme filter discards every `tel:` href the `api`
variant failed to pre-filter. -/
theorem collect_agree (base : List Char) : ∀ (hs r1 r2 : List (List Char)),
    collectUtils base hs = .ok r1 → collectApi base hs = .ok r2 →
    r1 = r2 := by
  intro hs
  induction hs with
  | nil =>
    intro r1 r2 h1 h2
    rw [collectUtils, Except.ok.injEq] at h1
    rw [collectApi, Except.ok.injEq] at h2
    rw [← h1, ← h2]
  | cons a hs ih =>
    intro r1 r2 h1 h2
    by_cases hA : skipHrefApi a = true
    · have hU : skipHrefUtils a = true := skipApi_imp_utils hA
      rw [collectUtils, if_pos hU] at h1
      rw [collectApi, if_pos hA] at h2
      exact ih r1 r2 h1 h2
    · by_cases hU : skipHrefUtils a = true
      · have htel : startsL "tel:".toList a = true :=
          utils_api_tel hU (Bool.not_eq_true _ ▸ hA)
        obtain ⟨r, rfl⟩ := startsL_exists "tel:".toList a htel
        rw [collectUtils, if_pos hU] at h1
        rw [collectApi, if_neg hA] at h2
        split at h2
        · exact Except.noConfusion h2
        · rename_i abs hj
          have habs : abs = "tel:".toList ++ r := urljoinE_tel base r abs hj
          subst habs
          split at h2
          · exact Except.noConfusion h2
          · rename_i p hp
            have hps : p.scheme = "tel".toList := urlparseE_tel r [] p hp
            split at h2
            · exact Except.noConfusion h2
            · rename_i tail ht2
              rw [Except.ok.injEq] at h2
              have hcond : ¬(p.scheme = "http".toList ∨
                  p.scheme = "https".toList) := by
                rw [hps]
                decide
              rw [if_neg hcond] at h2
              exact ih r1 r2 h1 (h2 ▸ ht2)
      · rw [collectUtils, if_neg hU] at h1
        rw [collectApi, if_neg hA] at h2
        split at h1
        · exact Except.noConfusion h1
        · rename_i abs1 hj1
          split at h1
          · exact Except.noConfusion h1
          · rename_i p1 hp1
            split at h1
            · exact Except.noConfusion h1
            · rename_i tail1 ht1
              rw [Except.ok.injEq] at h1
              split at h2
              · exact Except.noConfusion h2
              · rename_i abs2 hj2
                have e1 : abs1 = abs2 := Except.ok.inj (hj1.symm.trans hj2)
                subst e1
                split at h2
                · rename_i e heq
                  exact Except.noConfusion (hp1.symm.trans heq)
                · rename_i p2 hp2
                  have e2 : p1 = p2 := Except.ok.inj (hp1.symm.trans hp2)
                  subst e2
                  split at h2
                  · exact Except.noConfusion h2
                  · rename_i tail2 ht2
                    rw [Except.ok.injEq] at h2
                    have et : tail1 = tail2 := ih tail1 tail2 ht1 ht2
                    rw [← h1, ← h2, et]

/-! ## Claim C9 -/

/-- C9 (amended): the two implementations never return different
`(links, text)` pairs — whenever both return normally the results are
equal, because the post-resolution scheme filter also discards `tel:`
hrefs.  They diverge only in error behaviour: there are inputs (see the
counterexample) where the `utils` variant returns normally while the
`api` variant raises `ValueError` resolving a `tel:` href it did not
pre-filter. -/
theorem claim_C9 (doc : NodeList) (base : String)
    (r1 r2 : List String × String)
    (h1 : extract_urls_and_text doc base = .ok r1)
    (h2 : api_extract_urls_and_text doc base = .ok r2) : r1 = r2 := by
  unfold extract_urls_and_text at h1
  unfold api_extract_urls_and_text at h2
  split at h1
  · exact Except.noConfusion h1
  · rename_i urls1 hc1
    split at h2
    · exact Except.noConfusion h2
    · rename_i urls2 hc2
      have he : urls1 = urls2 := collect_agree base.toList _ urls1 urls2 hc1 hc2
      subst he
      rw [← Except.ok.inj h1, ← Except.ok.inj h2]

/-- Witness for C9: on `<a href="tel:+123">call</a>` with base
`https://example.com` both implementations return `([], "call")`. -/
theorem claim_C9_witness : (([], "call") : List String × String) = ([], "call") :=
  claim_C9 docTel "https://example.com" ([], "call") ([], "call") rfl rfl

/-- Counterexample to C9 as stated: the only behavioural difference is
return versus raise, never two different returned pairs.  On
`<a href="tel:+123">call</a>` with base `http://[` the `utils` variant
returns `([], "call")` while the `api` variant raises
`ValueError("Invalid IPv6 URL")` from resolving the `tel:` href. -/
theorem claim_C9_counterexample :
    extract_urls_and_text docTel "http://[" = .ok ([], "call") ∧
    api_extract_urls_and_text docTel "http://[" =
      .error "Invalid IPv6 URL" :=
  ⟨rfl, rfl⟩

/-! ## Helper lemmas: ASCII bracket-free strings never trigger the
`ValueError` paths of `urlsplit` -/

/-- A character that is ASCII and not a square bracket: strings of such
characters can trigger neither the `Invalid IPv6 URL` check nor the
NFKC validation of `_checknetloc`. -/
abbrev charSafe (c : Char) : Prop :=
  c.toNat ≤ 0x7F ∧ c ≠ '[' ∧ c ≠ ']'

/-- A string of ASCII non-bracket characters. -/
abbrev strSafe (l : List Char) : Prop := ∀ c ∈ l, charSafe c

/-- The empty string is safe. -/
theorem strSafe_nil : strSafe [] := fun c hc => absurd hc (by simp)

/-- Safety transfers along sublist membership. -/
theorem strSafe_sub {l1 l2 : List Char} (hs : ∀ x, x ∈ l2 → x ∈ l1)
    (h : strSafe l1) : strSafe l2 :=
  fun c hc => h c (hs c hc)

/-- Safety is preserved by append. -/
theorem strSafe_append {a b : List Char} (ha : strSafe a)
    (hb : strSafe b) : strSafe (a ++ b) := by
  intro c hc
  rcases List.mem_append.mp hc with h | h
  exacts [ha c h, hb c h]

/-- Safety is preserved by consing a safe character. -/
theorem strSafe_cons {c : Char} {a : List Char}
    (hc : charSafe c) (ha : strSafe a) : strSafe (c :: a) := by
  intro x hx
  rcases List.mem_cons.mp hx with rfl | hx'
  exacts [hc, ha x hx']

/-- An all-safe netloc never trips the NFKC validation. -/
theorem netlocNFKCUnsafe_false {l : List Char} (h : strSafe l) :
    netlocNFKCUnsafe l = false := by
  have hall : l.all isAsciiCh = true :=
    List.all_eq_true.mpr (fun c hc => decide_eq_true (h c hc).1)
  unfold netlocNFKCUnsafe
  rw [if_pos (Or.inr hall)]

/-- Elements of `takeWhile` come from the original list. -/
theorem mem_of_takeWhile {p : Char → Bool} {x : Char} {l : List Char}
    (h : x ∈ l.takeWhile p) : x ∈ l := by
  have hs := List.takeWhile_append_dropWhile (p := p) (l := l)
  rw [← hs]
  exact List.mem_append_left _ h

/-- Both components of `splitNetloc` draw from its input. -/
theorem splitNetloc_sub (l : List Char) :
    (∀ x ∈ (splitNetloc l).1, x ∈ l) ∧ (∀ x ∈ (splitNetloc l).2, x ∈ l) := by
  constructor
  · intro x hx
    exact mem_of_takeWhile hx
  · intro x hx
    exact List.mem_of_mem_drop hx

/-- Both components of `splitFirstAt` draw from its input. -/
theorem splitFirstAt_sub (c : Char) (l : List Char) :
    (∀ x ∈ (splitFirstAt c l).1, x ∈ l) ∧
    (∀ x ∈ (splitFirstAt c l).2, x ∈ l) := by
  simp only [splitFirstAt]
  split
  · exact ⟨fun x hx => hx, fun x hx => absurd hx (by simp)⟩
  · exact ⟨fun x hx => mem_of_takeWhile hx,
      fun x hx => List.mem_of_mem_drop hx⟩

/-- Both components of `splitParams` draw from its input. -/
theorem splitParams_sub (url : List Char) :
    (∀ x ∈ (splitParams url).1, x ∈ url) ∧
    (∀ x ∈ (splitParams url).2, x ∈ url) := by
  have hseg : ∀ x ∈ (url.reverse.takeWhile (fun c => c != '/')).reverse,
      x ∈ url := by
    intro x hx
    rw [List.mem_reverse] at hx
    have := mem_of_takeWhile hx
    rwa [List.mem_reverse] at this
  simp only [splitParams]
  split
  · split
    · constructor
      · intro x hx
        rcases List.mem_append.mp hx with h | h
        · rw [List.mem_reverse] at h
          have := List.mem_of_mem_drop h
          rwa [List.mem_reverse] at this
        · exact hseg x (mem_of_takeWhile h)
      · intro x hx
        exact hseg x (List.mem_of_mem_drop hx)
    · exact ⟨fun x hx => hx, fun x hx => absurd hx (by simp)⟩
  · split
    · exact ⟨fun x hx => hx, fun x hx => absurd hx (by simp)⟩
    · exact ⟨fun x hx => mem_of_takeWhile hx,
        fun x hx => List.mem_of_mem_drop hx⟩

/-- Characters of any part of `splitOnChar` come from the input. -/
theorem mem_splitOnChar_chars (c : Char) : ∀ (l q : List Char) (x : Char),
    q ∈ splitOnChar c l → x ∈ q → x ∈ l := by
  intro l
  induction l with
  | nil =>
    intro q x hq hx
    rw [splitOnChar] at hq
    rcases List.mem_singleton.mp hq with rfl
    exact absurd hx (by simp)
  | cons a l ih =>
    intro q x hq hx
    rw [splitOnChar] at hq
    by_cases h : (a == c) = true
    · rw [if_pos h] at hq
      rcases List.mem_cons.mp hq with rfl | hq'
      · exact absurd hx (by simp)
      · exact List.mem_cons_of_mem a (ih q x hq' hx)
    · rw [if_neg h] at hq
      cases hsp : splitOnChar c l with
      | nil => exact absurd hsp (splitOnChar_ne_nil c l)
      | cons p ps =>
        rw [hsp] at hq
        rcases List.mem_cons.mp hq with rfl | hq'
        · rcases List.mem_cons.mp hx with rfl | hx'
          · exact List.mem_cons_self x l
          · exact List.mem_cons_of_mem a
              (ih p x (hsp ▸ List.mem_cons_self p ps) hx')
        · exact List.mem_cons_of_mem a
            (ih q x (hsp ▸ List.mem_cons_of_mem p hq') hx)

/-- Characters of a `joinChar` are the separator or come from a part. -/
theorem mem_joinChar (c : Char) : ∀ (parts : List (List Char)) (x : Char),
    x ∈ joinChar c parts → x = c ∨ ∃ q ∈ parts, x ∈ q := by
  intro parts
  induction parts with
  | nil => intro x hx; exact absurd hx (by simp [joinChar])
  | cons p rest ih =>
    intro x hx
    cases rest with
    | nil =>
      exact Or.inr ⟨p, List.mem_singleton.mpr rfl, hx⟩
    | cons q rest2 =>
      rw [show joinChar c (p :: q :: rest2) =
        p ++ c :: joinChar c (q :: rest2) from rfl] at hx
      rcases List.mem_append.mp hx with h | h
      · exact Or.inr ⟨p, List.mem_cons_self p (q :: rest2), h⟩
      · rcases List.mem_cons.mp h with rfl | h'
        · exact Or.inl rfl
        · rcases ih x h' with h2 | ⟨q2, hq2, hx2⟩
          · exact Or.inl h2
          · exact Or.inr ⟨q2, List.mem_cons_of_mem p hq2, hx2⟩

/-- `midKeep` only drops entries. -/
theorem mem_midKeep : ∀ (l : List (List Char)) (q : List Char),
    q ∈ midKeep l → q ∈ l := by
  intro l
  induction l with
  | nil => intro q h; exact absurd h (by simp [midKeep])
  | cons x xs ih =>
    intro q h
    cases xs with
    | nil => simpa [midKeep] using h
    | cons y ys =>
      rw [show midKeep (x :: y :: ys) =
        (if x = [] then midKeep (y :: ys) else x :: midKeep (y :: ys))
        from rfl] at h
      split at h
      · exact List.mem_cons_of_mem x (ih q h)
      · rcases List.mem_cons.mp h with rfl | h'
        · exact List.mem_cons_self q (y :: ys)
        · exact List.mem_cons_of_mem x (ih q h')

/-- `midFilter` only drops entries. -/
theorem mem_midFilter : ∀ (l : List (List Char)) (q : List Char),
    q ∈ midFilter l → q ∈ l := by
  intro l q h
  cases l with
  | nil => exact absurd h (by simp [midFilter])
  | cons x xs =>
    rw [midFilter] at h
    rcases List.mem_cons.mp h with rfl | h'
    · exact List.mem_cons_self q xs
    · exact List.mem_cons_of_mem x (mem_midKeep xs q h')

/-- Entries of `resolveSegs` come from the accumulator or the segment
list. -/
theorem mem_resolveSegs : ∀ (segs acc : List (List Char)) (q : List Char),
    q ∈ resolveSegs acc segs → q ∈ acc ∨ q ∈ segs := by
  intro segs
  induction segs with
  | nil =>
    intro acc q h
    rw [resolveSegs] at h
    exact Or.inl h
  | cons s rest ih =>
    intro acc q h
    rw [resolveSegs] at h
    by_cases h1 : s = ['.', '.']
    · rw [if_pos h1] at h
      rcases ih _ q h with hacc | hrest
      · exact Or.inl (List.dropLast_subset _ hacc)
      · exact Or.inr (List.mem_cons_of_mem s hrest)
    · rw [if_neg h1] at h
      by_cases h2 : s = ['.']
      · rw [if_pos h2] at h
        rcases ih _ q h with hacc | hrest
        · exact Or.inl hacc
        · exact Or.inr (List.mem_cons_of_mem s hrest)
      · rw [if_neg h2] at h
        rcases ih _ q h with hacc | hrest
        · rcases List.mem_append.mp hacc with h3 | h3
          · exact Or.inl h3
          · rcases List.mem_singleton.mp h3 with rfl
            exact Or.inr (List.mem_cons_self q rest)
        · exact Or.inr (List.mem_cons_of_mem s hrest)

/-- Scheme characters (letters, digits, `+`, `-`, `.`) are ASCII. -/
theorem schemeChar_ascii (c : Char) (h : isSchemeChar c = true) :
    c.toNat ≤ 0x7F := by
  simp only [isSchemeChar, Bool.or_eq_true, beq_iff_eq] at h
  rcases h with (((ha | hd) | rfl) | rfl) | rfl
  · simp [Char.isAlpha, Char.isUpper, Char.isLower] at ha
    rcases ha with ⟨-, h2⟩ | ⟨-, h2⟩
    · simp only [UInt32.le_def, BitVec.le_def] at h2
      have h90 : ((90 : UInt32).toBitVec).toNat = 90 := rfl
      simp only [Char.toNat, UInt32.toNat]
      omega
    · simp only [UInt32.le_def, BitVec.le_def] at h2
      have h122 : ((122 : UInt32).toBitVec).toNat = 122 := rfl
      simp only [Char.toNat, UInt32.toNat]
      omega
  · simp [Char.isDigit] at hd
    obtain ⟨-, h2⟩ := hd
    simp only [UInt32.le_def, BitVec.le_def] at h2
    have h57 : ((57 : UInt32).toBitVec).toNat = 57 := rfl
    simp only [Char.toNat, UInt32.toNat]
    omega
  · decide
  · decide
  · decide

/-- ASCII lowercasing of a scheme character is ASCII and never a
bracket. -/
theorem lowerAscii_safe (c : Char) (hc : isSchemeChar c = true) :
    charSafe (lowerAscii c) := by
  have hfall : charSafe c := by
    refine ⟨schemeChar_ascii c hc, fun he => ?_, fun he => ?_⟩
    · rw [he] at hc
      exact absurd hc (by decide)
    · rw [he] at hc
      exact absurd hc (by decide)
  unfold lowerAscii
  split <;>
    first
    | exact (by decide)
    | exact hfall

/-- A successful scheme detection hands back a safe (ASCII, non-bracket)
scheme and a remainder drawn from the input. -/
theorem schemeSplit_parts (l sch rest : List Char)
    (h : schemeSplit l = some (sch, rest)) :
    strSafe sch ∧ (∀ x ∈ rest, x ∈ l) := by
  simp only [schemeSplit] at h
  split at h
  · rename_i hcond
    rw [Option.some.injEq, Prod.mk.injEq] at h
    obtain ⟨hsch, hrest⟩ := h
    constructor
    · rw [← hsch]
      intro x hx
      obtain ⟨y, hy, hyx⟩ := List.mem_map.mp hx
      have hys : isSchemeChar y = true :=
        List.all_eq_true.mp hcond.2.2.2 y hy
      rw [← hyx]
      exact lowerAscii_safe y hys
    · intro x hx
      rw [← hrest] at hx
      exact List.mem_of_mem_drop hx
  · exact Option.noConfusion h

/-- On a safe (ASCII, bracket-free) remainder, `urlsplitTail` succeeds
and all its non-scheme components draw from the remainder. -/
theorem urlsplitTail_ok (sch u1 : List Char) (hsf : strSafe u1) :
    ∃ s, urlsplitTail sch u1 = .ok s ∧ s.scheme = sch ∧
      (∀ x ∈ s.netloc, x ∈ u1) ∧ (∀ x ∈ s.path, x ∈ u1) ∧
      (∀ x ∈ s.query, x ∈ u1) ∧ (∀ x ∈ s.fragment, x ∈ u1) := by
  simp only [urlsplitTail]
  by_cases ht2 : u1.take 2 = ['/', '/']
  · rw [if_pos ht2]
    have hnsub : ∀ x ∈ (splitNetloc (u1.drop 2)).1, x ∈ u1 := fun x hx =>
      List.mem_of_mem_drop ((splitNetloc_sub (u1.drop 2)).1 x hx)
    have husub : ∀ x ∈ (splitNetloc (u1.drop 2)).2, x ∈ u1 := fun x hx =>
      List.mem_of_mem_drop ((splitNetloc_sub (u1.drop 2)).2 x hx)
    have hC : ¬(('[' ∈ (splitNetloc (u1.drop 2)).1 ∧
        ']' ∉ (splitNetloc (u1.drop 2)).1) ∨
        (']' ∈ (splitNetloc (u1.drop 2)).1 ∧
        '[' ∉ (splitNetloc (u1.drop 2)).1)) := by
      rintro (⟨h1, -⟩ | ⟨h1, -⟩)
      · exact (hsf '[' (hnsub _ h1)).2.1 rfl
      · exact (hsf ']' (hnsub _ h1)).2.2 rfl
    rw [if_neg hC]
    have hN : netlocNFKCUnsafe (splitNetloc (u1.drop 2)).1 = false :=
      netlocNFKCUnsafe_false (strSafe_sub hnsub hsf)
    rw [hN]
    simp only [Bool.false_eq_true, if_false]
    refine ⟨_, rfl, rfl, hnsub, ?_, ?_, ?_⟩
    · intro x hx
      exact husub _ ((splitFirstAt_sub '#' _).1 _
        ((splitFirstAt_sub '?' _).1 x hx))
    · intro x hx
      exact husub _ ((splitFirstAt_sub '#' _).1 _
        ((splitFirstAt_sub '?' _).2 x hx))
    · intro x hx
      exact husub _ ((splitFirstAt_sub '#' _).2 x hx)
  · rw [if_neg ht2]
    have hC : ¬(('[' ∈ (([], u1) : List Char × List Char).1 ∧
        ']' ∉ (([], u1) : List Char × List Char).1) ∨
        (']' ∈ (([], u1) : List Char × List Char).1 ∧
        '[' ∉ (([], u1) : List Char × List Char).1)) := by
      rintro (⟨h1, -⟩ | ⟨h1, -⟩) <;> exact absurd h1 (by simp)
    rw [if_neg hC]
    have hN : netlocNFKCUnsafe (([], u1) : List Char × List Char).1 =
        false := rfl
    rw [hN]
    simp only [Bool.false_eq_true, if_false]
    refine ⟨_, rfl, rfl, ?_, ?_, ?_, ?_⟩
    · intro x hx
      exact absurd hx (by simp)
    · intro x hx
      exact (splitFirstAt_sub '#' _).1 _ ((splitFirstAt_sub '?' _).1 x hx)
    · intro x hx
      exact (splitFirstAt_sub '#' _).1 _ ((splitFirstAt_sub '?' _).2 x hx)
    · intro x hx
      exact (splitFirstAt_sub '#' _).2 x hx

/-- On a safe url and default scheme, `urlsplit` succeeds with safe
components. -/
theorem urlsplitE_ok (u d : List Char) (hu : strSafe u) (hd : strSafe d) :
    ∃ s, urlsplitE u d = .ok s ∧ strSafe s.scheme ∧ strSafe s.netloc ∧
      strSafe s.path ∧ strSafe s.query ∧ strSafe s.fragment := by
  have hclean : ∀ x ∈ cleanUrl u, x ∈ u := fun x hx =>
    mem_of_dropWhile (List.mem_of_mem_filter hx)
  have hcleanB : strSafe (cleanUrl u) := strSafe_sub hclean hu
  cases hss : schemeSplit (cleanUrl u) with
  | none =>
    have hcs : ∀ x ∈ cleanScheme d, x ∈ d := fun x hx =>
      mem_of_stripEnds (List.mem_of_mem_filter hx)
    obtain ⟨s, hs, hsch, hnet, hpath, hq, hf⟩ :=
      urlsplitTail_ok (cleanScheme d) (cleanUrl u) hcleanB
    refine ⟨s, ?_, ?_, ?_, ?_, ?_, ?_⟩
    · simp only [urlsplitE]
      rw [hss]
      exact hs
    · rw [hsch]
      exact strSafe_sub hcs hd
    · exact strSafe_sub (fun x hx => hclean x (hnet x hx)) hu
    · exact strSafe_sub (fun x hx => hclean x (hpath x hx)) hu
    · exact strSafe_sub (fun x hx => hclean x (hq x hx)) hu
    · exact strSafe_sub (fun x hx => hclean x (hf x hx)) hu
  | some pr =>
    obtain ⟨sch, rest⟩ := pr
    obtain ⟨hschB, hrest⟩ := schemeSplit_parts (cleanUrl u) sch rest hss
    have hrestB : strSafe rest :=
      strSafe_sub (fun x hx => hclean x (hrest x hx)) hu
    obtain ⟨s, hs, hsch, hnet, hpath, hq, hf⟩ :=
      urlsplitTail_ok sch rest hrestB
    refine ⟨s, ?_, ?_, ?_, ?_, ?_, ?_⟩
    · simp only [urlsplitE]
      rw [hss]
      exact hs
    · rw [hsch]
      exact hschB
    · exact strSafe_sub (fun x hx => hclean x (hrest x (hnet x hx))) hu
    · exact strSafe_sub (fun x hx => hclean x (hrest x (hpath x hx))) hu
    · exact strSafe_sub (fun x hx => hclean x (hrest x (hq x hx))) hu
    · exact strSafe_sub (fun x hx => hclean x (hrest x (hf x hx))) hu

/-- On a safe url and default scheme, `urlparse` succeeds with safe
components. -/
theorem urlparseE_ok (u d : List Char) (hu : strSafe u) (hd : strSafe d) :
    ∃ p, urlparseE u d = .ok p ∧ strSafe p.scheme ∧ strSafe p.netloc ∧
      strSafe p.path ∧ strSafe p.params ∧ strSafe p.query ∧ strSafe p.fragment := by
  obtain ⟨s, hs, h1, h2, h3, h4, h5⟩ := urlsplitE_ok u d hu hd
  have hpp : strSafe ((if s.scheme ∈ usesParams ∧ ';' ∈ s.path then
      splitParams s.path else (s.path, [])).1) ∧
      strSafe ((if s.scheme ∈ usesParams ∧ ';' ∈ s.path then
      splitParams s.path else (s.path, [])).2) := by
    split
    · exact ⟨strSafe_sub (fun x hx => (splitParams_sub s.path).1 x hx) h3,
        strSafe_sub (fun x hx => (splitParams_sub s.path).2 x hx) h3⟩
    · exact ⟨h3, strSafe_nil⟩
  refine ⟨⟨s.scheme, s.netloc,
    (if s.scheme ∈ usesParams ∧ ';' ∈ s.path then splitParams s.path
      else (s.path, [])).1,
    (if s.scheme ∈ usesParams ∧ ';' ∈ s.path then splitParams s.path
      else (s.path, [])).2,
    s.query, s.fragment⟩, ?_, h1, h2, hpp.1, hpp.2, h4, h5⟩
  rw [urlparseE, hs]

/-- `urlunsplit` of safe components is safe: the glue characters `:`,
`/`, `?`, `#` are ASCII non-brackets. -/
theorem urlunsplitC_safe {scheme netloc path query fragment : List Char}
    (hs : strSafe scheme) (hn : strSafe netloc) (hp : strSafe path)
    (hq : strSafe query) (hf : strSafe fragment) :
    strSafe (urlunsplitC scheme netloc path query fragment) := by
  simp only [urlunsplitC]
  repeat' split
  all_goals
    repeat
      first
      | exact hs
      | exact hn
      | exact hp
      | exact hq
      | exact hf
      | exact strSafe_nil
      | refine strSafe_append ?_ ?_
      | refine strSafe_cons (by decide) ?_

/-- `urlunparse` of safe components is safe. -/
theorem urlunparseC_safe
    {scheme netloc path params query fragment : List Char}
    (hs : strSafe scheme) (hn : strSafe netloc) (hp : strSafe path)
    (hpar : strSafe params) (hq : strSafe query) (hf : strSafe fragment) :
    strSafe (urlunparseC scheme netloc path params query fragment) := by
  simp only [urlunparseC]
  split
  · exact urlunsplitC_safe hs hn
      (strSafe_append hp (strSafe_cons (by decide) hpar)) hq hf
  · exact urlunsplitC_safe hs hn hp hq hf

/-- Entries of the resolved segment sequence (with the possible trailing
empty segment) come from the segment list or are empty. -/
theorem mem_resolved_sub (segs : List (List Char)) (q : List Char)
    (hq : q ∈ (if segs.getLastD [] = ['.'] ∨ segs.getLastD [] = ['.', '.']
      then resolveSegs [] segs ++ [[]] else resolveSegs [] segs)) :
    q = [] ∨ q ∈ segs := by
  split at hq
  · rcases List.mem_append.mp hq with h | h
    · rcases mem_resolveSegs segs [] q h with h2 | h2
      · exact absurd h2 (by simp)
      · exact Or.inr h2
    · exact Or.inl (List.mem_singleton.mp h)
  · rcases mem_resolveSegs segs [] q hq with h2 | h2
    · exact absurd h2 (by simp)
    · exact Or.inr h2

/-- Entries of the merged segment list come from the base-path split or
the url-path split. -/
theorem mem_segments_sub (bp up : List Char) (q : List Char)
    (hq : q ∈ (if up.take 1 = ['/'] then splitOnChar '/' up
      else midFilter ((if (splitOnChar '/' bp).getLastD [] = []
        then splitOnChar '/' bp
        else (splitOnChar '/' bp).dropLast) ++ splitOnChar '/' up))) :
    q ∈ splitOnChar '/' bp ∨ q ∈ splitOnChar '/' up := by
  split at hq
  · exact Or.inr hq
  · have hq2 := mem_midFilter _ q hq
    rcases List.mem_append.mp hq2 with h | h
    · left
      split at h
      · exact h
      · exact List.dropLast_subset _ h
    · exact Or.inr h

/-- Characters of the merged path are the slash or come from one of the
two path inputs. -/
theorem mem_mergePath (bp up : List Char) (x : Char)
    (hx : x ∈ mergePath bp up) : x = '/' ∨ x ∈ bp ∨ x ∈ up := by
  simp only [mergePath] at hx
  generalize hseg : (if up.take 1 = ['/'] then splitOnChar '/' up
    else midFilter ((if (splitOnChar '/' bp).getLastD [] = []
      then splitOnChar '/' bp
      else (splitOnChar '/' bp).dropLast) ++ splitOnChar '/' up)) =
    segs at hx
  generalize hres : (if segs.getLastD [] = ['.'] ∨
      segs.getLastD [] = ['.', '.']
    then resolveSegs [] segs ++ [[]] else resolveSegs [] segs) = res at hx
  split at hx
  · exact Or.inl (List.mem_singleton.mp hx)
  · rcases mem_joinChar '/' res x hx with h | ⟨q, hq, hxq⟩
    · exact Or.inl h
    · rw [← hres] at hq
      rcases mem_resolved_sub segs q hq with rfl | hqs
      · exact absurd hxq (by simp)
      · rw [← hseg] at hqs
        rcases mem_segments_sub bp up q hqs with h | h
        · exact Or.inr (Or.inl (mem_splitOnChar_chars '/' bp q x h hxq))
        · exact Or.inr (Or.inr (mem_splitOnChar_chars '/' up q x h hxq))

/-- The merged path of safe paths is safe. -/
theorem mergePath_safe (bp up : List Char) (hb : strSafe bp)
    (hu : strSafe up) : strSafe (mergePath bp up) := by
  intro x hx
  rcases mem_mergePath bp up x hx with rfl | h1 | h1
  · decide
  · exact hb x h1
  · exact hu x h1

/-- The `urljoin` merge of safe components is safe. -/
theorem urljoinMerge_safe (url : List Char) (b u : ParseRes)
    (hurl : strSafe url)
    (hbn : strSafe b.netloc) (hbp : strSafe b.path) (hbpar : strSafe b.params)
    (hbq : strSafe b.query)
    (hus : strSafe u.scheme) (hun : strSafe u.netloc) (hup : strSafe u.path)
    (hupar : strSafe u.params) (huq : strSafe u.query)
    (huf : strSafe u.fragment) :
    strSafe (urljoinMerge url b u) := by
  simp only [urljoinMerge]
  split
  · exact hurl
  · split
    · exact urlunparseC_safe hus hun hup hupar huq huf
    · have hnet : strSafe (if u.scheme ∈ usesNetloc then b.netloc
          else u.netloc) := by
        split
        · exact hbn
        · exact hun
      split
      · refine urlunparseC_safe hus hnet hbp hbpar ?_ huf
        split
        · exact hbq
        · exact huq
      · exact urlunparseC_safe hus hnet
          (mergePath_safe b.path u.path hbp hup) hupar huq huf

/-- On safe arguments, `urljoin` succeeds and returns a safe URL. -/
theorem urljoinE_ok (b u : List Char) (hb : strSafe b) (hu : strSafe u) :
    ∃ r, urljoinE b u = .ok r ∧ strSafe r := by
  by_cases hb0 : b = []
  · refine ⟨u, ?_, hu⟩
    simp only [urljoinE]
    rw [if_pos hb0]
  · by_cases hu0 : u = []
    · refine ⟨b, ?_, hb⟩
      simp only [urljoinE]
      rw [if_neg hb0, if_pos hu0]
    · obtain ⟨pb, hpb, pbs, pbn, pbp, pbpar, pbq, pbf⟩ :=
        urlparseE_ok b [] hb strSafe_nil
      obtain ⟨pu, hpu, pus, pun, pup, pupar, puq, puf⟩ :=
        urlparseE_ok u pb.scheme hu pbs
      refine ⟨urljoinMerge u pb pu, ?_, ?_⟩
      · simp only [urljoinE]
        rw [if_neg hb0, if_neg hu0, hpb]
        show (match urlparseE u pb.scheme with
          | .error e => Except.error e
          | .ok v => Except.ok (urljoinMerge u pb v)) =
          .ok (urljoinMerge u pb pu)
        rw [hpu]
      · exact urljoinMerge_safe u pb pu hu pbn pbp pbpar pbq pus pun pup
          pupar puq puf

/-- On a safe base and safe hrefs, the `utils` collection loop never
raises. -/
theorem collectUtils_ok (base : List Char) (hbB : strSafe base) :
    ∀ hs : List (List Char), (∀ h ∈ hs, strSafe h) →
    ∃ urls, collectUtils base hs = .ok urls := by
  intro hs
  induction hs with
  | nil => exact fun _ => ⟨[], rfl⟩
  | cons a rest ih =>
    intro hall
    obtain ⟨tail, htail⟩ :=
      ih (fun h hh => hall h (List.mem_cons_of_mem a hh))
    by_cases ha : skipHrefUtils a = true
    · refine ⟨tail, ?_⟩
      rw [collectUtils, if_pos ha]
      exact htail
    · have haB : strSafe a := hall a (List.mem_cons_self a rest)
      obtain ⟨abs, habs, habsB⟩ := urljoinE_ok base a hbB haB
      obtain ⟨p, hp, -, -, -, -, -, -⟩ :=
        urlparseE_ok abs [] habsB strSafe_nil
      refine ⟨if p.scheme = "http".toList ∨ p.scheme = "https".toList
        then abs :: tail else tail, ?_⟩
      rw [collectUtils, if_neg ha, habs]
      show (match urlparseE abs [] with
        | .error e => Except.error e
        | .ok q =>
          match collectUtils base rest with
          | .error e => Except.error e
          | .ok tail2 =>
            Except.ok (if q.scheme = "http".toList ∨
                q.scheme = "https".toList
              then abs :: tail2 else tail2)) = _
      rw [hp]
      show (match collectUtils base rest with
        | .error e => Except.error e
        | .ok tail2 =>
          Except.ok (if p.scheme = "http".toList ∨
              p.scheme = "https".toList
            then abs :: tail2 else tail2)) = _
      rw [htail]

/-! ## Claim C2 -/

/-- C2 (amended): `extract_urls_and_text` returns normally for every
document and base URL in which the base URL and every anchor href
consist of ASCII characters and contain no square bracket — in
particular it never raises for merely malformed markup.  It is not
total: an unbalanced bracket in an authority makes CPython's `urlsplit`
raise `ValueError("Invalid IPv6 URL")`, and a non-ASCII authority whose
NFKC normalization introduces a URL delimiter makes `_checknetloc`
raise; neither is caught (see the counterexample, which exhibits
both). -/
theorem claim_C2 (doc : NodeList) (base : String)
    (hbase : strSafe base.toList)
    (hhrefs : ∀ h ∈ anchorHrefsL (pruneList doc), strSafe h.toList) :
    ∃ r, extract_urls_and_text doc base = .ok r := by
  obtain ⟨urls, hurls⟩ := collectUtils_ok base.toList hbase
    ((anchorHrefsL (pruneList doc)).map String.toList)
    (by
      intro h hh
      obtain ⟨h0, hh0, rfl⟩ := List.mem_map.mp hh
      exact hhrefs h0 hh0)
  have hext : extract_urls_and_text doc base =
      .ok ((dedupAcc [] urls).map String.mk,
        String.mk (cleanText (getTextL (pruneList doc)))) := by
    unfold extract_urls_and_text
    rw [hurls]
  exact ⟨_, hext⟩

/-- Witness for C2 at scenario 1, whose base and hrefs are ASCII and
bracket-free. -/
theorem claim_C2_witness :
    ∃ r, extract_urls_and_text docScenario1 "https://example.com" =
      .ok r :=
  claim_C2 docScenario1 "https://example.com" (by decide) (by decide)

/-- Counterexample to C2 as stated: the function can raise on both of
its uncaught `ValueError` paths.  On `<a href="x">t</a>` with base
`http://[` the authority has an unbalanced bracket and `urlsplit`
raises `Invalid IPv6 URL`; with base `http://a℀b` the authority is
bracket-free but U+2100 NFKC-normalizes to `a/c`, so `_checknetloc`
raises instead of returning. -/
theorem claim_C2_counterexample :
    extract_urls_and_text docPlain "http://[" =
      .error "Invalid IPv6 URL" ∧
    extract_urls_and_text docPlain "http://a℀b" =
      .error "netloc contains invalid characters under NFKC normalization" :=
  ⟨rfl, rfl⟩

end ParScrape
